import Mathlib

/-
Verification development for the wikipedia-analysis repository
(src/wikipedia_category_analyzer.py, src/app.py, src/color_palette.py).

The Python source is shallowly embedded below:
* the tokenizer `extract_words` is embedded as a character-level scanner
  implementing the semantics of `re.findall(r'\b[a-zA-Z]+\b', text.lower())`
  on ASCII text: the pattern's letter class is ASCII in the source itself,
  while the boundary's word-character class and str.lower are Unicode-aware
  external capabilities (the re engine's and str's character tables), fixed
  here to their ASCII restrictions `[A-Za-z0-9_]` and ASCII to-lower, which
  are exact on ASCII input - tokenizer claims therefore carry an
  ASCII-input hypothesis;
* the cache-backed analysis pipeline is embedded as pure state passing over a
  file-system map from path names to (content, mtime) pairs; timestamps are
  integers counting seconds, `timedelta(days=d)` is `d * 86400`;
* the external collaborators named by the code (the MediaWiki HTTP transport
  wrapped by `requests`, `hashlib.md5`, and the JSON (de)serialization done by
  `json.dump`/`json.load`) are modelled as deterministic capabilities: the
  network is an `Oracle` giving the category-member list and per-page text,
  and cache files store structured documents, with a `malformed` content
  standing for any file whose bytes do not parse as JSON.
-/

namespace WikipediaAnalysis

/-- Stop-word list, transcribed from the STOP_WORDS set literal of
wikipedia_category_analyzer.py (duplicates in the literal are kept; only
membership matters). -/
def STOP_WORDS : List String :=
  ["a", "an", "and", "are", "as", "at", "be", "by", "for", "from", "has", "he",
   "in", "is", "it", "its", "of", "on", "that", "the", "to", "was", "will", "with",
   "or", "but", "not", "this", "they", "their", "them", "these", "those", "then",
   "than", "there", "where", "when", "who", "what", "which", "why", "how", "can",
   "could", "would", "should", "may", "might", "must", "shall", "will", "do", "did",
   "does", "have", "had", "having", "been", "being", "am", "is", "are", "was", "were",
   "i", "you", "we", "they", "me", "him", "her", "us", "my", "your", "his", "her",
   "our", "also", "all", "any", "some", "each", "every", "no", "none", "one", "two",
   "first", "last", "other", "another", "more", "most", "many", "much", "few", "less",
   "such", "same", "different", "new", "old", "good", "bad", "big", "small", "long",
   "short", "high", "low", "right", "left", "up", "down", "here", "there", "now",
   "then", "today", "tomorrow", "yesterday", "always", "never", "sometimes", "often",
   "usually", "again", "once", "twice", "very", "too", "so", "just", "only", "even",
   "still", "yet", "already", "almost", "quite", "rather", "really", "actually",
   "probably", "perhaps", "maybe", "certainly", "definitely", "absolutely", "exactly",
   "completely", "totally", "entirely", "particularly", "especially", "generally",
   "specifically", "basically", "essentially", "mainly", "mostly", "largely",
   "partly", "slightly", "somewhat", "fairly", "pretty", "enough", "too", "very"]

/-- The ASCII restriction of the word-character class that the regex
boundary (backslash-b) consults.  In CPython the class is Unicode-aware -
any character for which str.isalnum() holds, plus underscore - and lives in
the re engine's external character tables; this embedding fixes it to its
ASCII part [A-Za-z0-9_], which agrees with the engine exactly on ASCII text.
Tokenizer claims are accordingly stated for ASCII input: on non-ASCII text
the real class blocks more boundaries (for example the accented letter in
"dogé" is a word character, so CPython emits no token there). -/
def isWordChar (c : Char) : Bool := c.isAlphanum || c == '_'

/-- State of the regex scanner: either outside a candidate match (tracking
whether the previous character was a word character, which decides whether a
word boundary is present), or inside a candidate alphabetic run (accumulated
in reverse). -/
inductive ScanState : Type
  | out (prevIsWord : Bool)
  | inRun (acc : List Char)
deriving Repr, DecidableEq

/-- Scanner implementing the semantics of
`re.findall(r'\b[a-zA-Z]+\b', s)` over ASCII text: a maximal alphabetic run
is emitted iff the characters adjacent to it (when present) are not word
characters.  A run whose left boundary fails never starts (the previous
character was a word character); a run whose right boundary fails (the
character after the run is a digit or underscore) is discarded. -/
def scanWords : ScanState → List Char → List (List Char)
  | ScanState.out _, [] => []
  | ScanState.inRun acc, [] => [acc.reverse]
  | ScanState.out prevIsWord, c :: cs =>
    if c.isAlpha && !prevIsWord then scanWords (ScanState.inRun [c]) cs
    else scanWords (ScanState.out (isWordChar c)) cs
  | ScanState.inRun acc, c :: cs =>
    if c.isAlpha then scanWords (ScanState.inRun (c :: acc)) cs
    else if isWordChar c then scanWords (ScanState.out true) cs
    else acc.reverse :: scanWords (ScanState.out false) cs

/-- Token filter from `extract_words` (wikipedia_category_analyzer.py lines
233-237): drop stop words and words shorter than 3 characters. -/
def keepWord (w : String) : Bool := !(STOP_WORDS.contains w) && decide (3 ≤ w.length)

/-- Embedding of `WikipediaAnalyzer.extract_words` (lines 217-239): empty
text yields []; otherwise lower-case the text, find all matches of the regex
`\b[a-zA-Z]+\b`, and filter out stop words and words of length < 3.
The letter class [a-zA-Z] is ASCII in the source pattern itself; the
lower-casing (Python's Unicode-aware str.lower) is modelled by the ASCII
Char.toLower and the boundary class by the ASCII isWordChar, so this
function is the program's tokenizer exactly on ASCII text, the domain over
which the tokenizer claims are stated (see isWordChar). -/
def extract_words (text : String) : List String :=
  if text.isEmpty then []
  else
    let words := (scanWords (ScanState.out false) (text.toList.map Char.toLower)).map
      (fun l => String.mk l)
    words.filter keepWord

/-- Maximal runs of characters satisfying the word-character predicate, in
input order (spec-side notion used to characterize the tokenizer). -/
def wordRuns : List Char → List (List Char)
  | [] => []
  | c :: cs =>
    if isWordChar c then (c :: cs.takeWhile isWordChar) :: wordRuns (cs.dropWhile isWordChar)
    else wordRuns cs
termination_by l => l.length
decreasing_by
  · simp only [List.length_cons]
    exact Nat.lt_succ_of_le ((List.dropWhile_sublist _).length_le)
  · simp [Nat.lt_succ_self]

/-- Maximal runs of ASCII alphabetic characters, in input order (the notion
used by the claim's literal boundary rule: a maximal alphabetic run by
definition has no alphabetic character immediately adjacent to it). -/
def alphaRuns : List Char → List (List Char)
  | [] => []
  | c :: cs =>
    if c.isAlpha then (c :: cs.takeWhile Char.isAlpha) :: alphaRuns (cs.dropWhile Char.isAlpha)
    else alphaRuns cs
termination_by l => l.length
decreasing_by
  · simp only [List.length_cons]
    exact Nat.lt_succ_of_le ((List.dropWhile_sublist _).length_le)
  · simp [Nat.lt_succ_self]

/-- Tokenizer as the claim literally states it: lower-case, take the maximal
runs of ASCII alphabetic characters (no alphabetic character adjacent), then
filter stop words and short words. -/
def extract_words_claimed (text : String) : List String :=
  ((alphaRuns (text.toList.map Char.toLower)).map (fun l => String.mk l)).filter keepWord

/-- Tokenizer specification with the corrected boundary rule: lower-case,
take the maximal runs of word characters that consist purely of ASCII
alphabetic characters (equivalently, maximal alphabetic runs with no word
character - letter, digit or underscore - immediately adjacent), then filter
stop words and short words. -/
def extract_words_spec (text : String) : List String :=
  (((wordRuns (text.toList.map Char.toLower)).filter (fun r => r.all Char.isAlpha)).map
    (fun l => String.mk l)).filter keepWord

/-- Fuel-driven worker for firstOccur; the fuel is always at least the list
length at every call site, so the fuel-exhausted branch is never taken. -/
def firstOccurAux : Nat → List String → List String
  | _, [] => []
  | 0, _ :: _ => []
  | n + 1, x :: xs => x :: firstOccurAux n (xs.filter (fun y => y != x))

/-- Keys of a Python dict built by insertion: first occurrences, in order. -/
def firstOccur (l : List String) : List String := firstOccurAux l.length l

/-- Embedding of `collections.Counter(all_words)` converted to a dict
(wikipedia_category_analyzer.py lines 293-294): an association list mapping
each distinct word, in first-occurrence order, to its number of occurrences. -/
def counter (l : List String) : List (String × Nat) :=
  (firstOccur l).map (fun w => (w, l.count w))

/-- JSON cache document as a record of the optional fields used by the two
cache kinds (a missing field models a key absent from the dict; Python's
`dict.get` on such a key returns None). -/
structure CacheDoc : Type where
  category : Option String := none
  pages : Option (List String) := none
  fetched_at : Option Int := none
  total_pages : Option Nat := none
  word_frequencies : Option (List (String × Nat)) := none
  analyzed_at : Option Int := none
  total_pages_processed : Option Nat := none
  total_unique_words : Option Nat := none
  total_word_occurrences : Option Nat := none
deriving Repr, DecidableEq

/-- The empty dict returned by `_load_cache` on a missing or malformed cache
file. -/
def emptyDoc : CacheDoc := {}

/-- Content of a cache file: either a JSON document (a dict with the optional
fields that the two cache schemas use; `json.load` of a well-formed cache file
produces such a dict) or malformed bytes that do not parse as JSON. -/
inductive FileContent : Type
  | json (doc : CacheDoc)
  | malformed
deriving Repr, DecidableEq

/-- On-disk state: a map from path name to (content, mtime).  Timestamps are
integer seconds. -/
def FS : Type := String → Option (FileContent × Int)

/-- File system with no files. -/
def emptyFS : FS := fun _ => none

/-- Writing one file (creates or overwrites; the new mtime is the current
time). -/
def FS.set (fs : FS) (file : String) (v : FileContent × Int) : FS :=
  fun k => if k = file then some v else fs k

/-- Analyzer configuration: cache directory and expiry in days
(`WikipediaAnalyzer.__init__`, defaults "cache" and 7). -/
structure Config : Type where
  cache_dir : String := "cache"
  cache_expiry_days : Nat := 7
deriving Repr, DecidableEq

/-- The external MediaWiki capabilities, deterministic while the underlying
data does not change: the full member list of a category (the paginated
`categorymembers` listing, accumulated) and the plain-text body of a page
(the `extracts` query; empty string when the page has no extract). -/
structure Oracle : Type where
  members : String → List String
  content : String → String

/-- Number of seconds in a day: `timedelta(days := d)` is `d * 86400`
seconds. -/
def secondsPerDay : Int := 86400

/-- Filename-safe slug from `_get_cache_filename` (line 73):
`re.sub(r'[^a-zA-Z0-9_-]', '_', category)`. -/
def safe_category (category : String) : String :=
  String.mk (category.toList.map (fun c =>
    if c.isAlphanum || c == '_' || c == '-' then c else '_'))

/-- Hexadecimal digit. -/
def hexDigit (n : Nat) : Char :=
  if n < 10 then Char.ofNat (48 + n) else Char.ofNat (87 + n)

/-- Eight-hex-digit rendering of a number below 2 ^ 32. -/
def toHex8 (n : Nat) : String :=
  String.mk ((List.range 8).map (fun i => hexDigit (n / 16 ^ (7 - i) % 16)))

/-- Model of the external `hashlib.md5(category.encode()).hexdigest()[:8]`
digest capability (line 72): a deterministic eight-hex-character digest of
the category string.  No claim depends on the digest's exact values, only on
its determinism, which any function has. -/
def category_hash (category : String) : String :=
  toHex8 (category.toList.foldl (fun h c => (h * 31 + c.toNat) % 4294967296) 7)

/-- Embedding of `_get_cache_filename` (lines 69-74):
cache_dir/safe_category_hash8_cachetype.json. -/
def cache_filename (cfg : Config) (category cache_type : String) : String :=
  cfg.cache_dir ++ "/" ++ safe_category category ++ "_" ++ category_hash category
    ++ "_" ++ cache_type ++ ".json"

/-- Embedding of `_is_cache_valid` (lines 76-85): the file exists and its
modification time is after `datetime.now() - timedelta(days=cache_expiry_days)`. -/
def is_cache_valid (cfg : Config) (fs : FS) (now : Int) (cache_file : String) : Bool :=
  match fs cache_file with
  | none => false
  | some (_, mtime) => decide (now - (cfg.cache_expiry_days : Int) * secondsPerDay < mtime)

/-- Embedding of `_load_cache` (lines 87-93): return the parsed JSON dict; a
missing file (FileNotFoundError) or malformed content (JSONDecodeError) gives
the empty dict. -/
def load_cache (fs : FS) (cache_file : String) : CacheDoc :=
  match fs cache_file with
  | some (FileContent.json d, _) => d
  | _ => emptyDoc

/-- Embedding of `_save_cache` (lines 95-101): write the document as JSON to
the cache file (in the pure model the write succeeds; the code swallows write
errors). -/
def save_cache (fs : FS) (now : Int) (cache_file : String) (data : CacheDoc) : FS :=
  FS.set fs cache_file (FileContent.json data, now)

/-- The members-cache lookup guard of `get_category_members` (lines 113-120):
when the members cache file is valid and its `pages` entry is a non-empty
list (Python truthiness of `cached_data.get('pages')`), the cached titles are
returned; otherwise the lookup misses. -/
def membersLookup (cfg : Config) (fs : FS) (now : Int) (category : String) :
    Option (List String) :=
  if is_cache_valid cfg fs now (cache_filename cfg category "members") then
    match (load_cache fs (cache_filename cfg category "members")).pages with
    | some (p :: ps) => some (p :: ps)
    | _ => none
  else none

/-- The members-kind cache document written by `get_category_members`
(lines 170-175). -/
def mk_members_data (category : String) (pages : List String) (now : Int) : CacheDoc :=
  { category := some category, pages := some pages, fetched_at := some now,
    total_pages := some pages.length }

/-- Embedding of `get_category_members` (lines 103-179): serve valid
non-empty cached titles with no network access; otherwise fetch the member
list (the paginated listing, modelled as one capability call) and write a
fresh members-kind cache document - even when the list is empty.  Returns
(titles, new file system, number of network capability calls). -/
def get_category_members (cfg : Config) (o : Oracle) (now : Int) (fs : FS)
    (category : String) : List String × FS × Nat :=
  match membersLookup cfg fs now category with
  | some pages => (pages, fs, 0)
  | none =>
    let pages := o.members category
    (pages, save_cache fs now (cache_filename cfg category "members")
      (mk_members_data category pages now), 1)

/-- Words contributed by one page in the aggregation loop (lines 274-287):
fetch the content (one capability call per title, `get_page_content`), and
tokenize it when non-empty. -/
def pageWords (o : Oracle) (title : String) : List String :=
  if (o.content title).isEmpty then [] else extract_words (o.content title)

/-- The analysis-cache lookup guard of `analyze_category` (lines 251-259):
when the analysis cache file is valid and its `word_frequencies` entry is a
non-empty mapping (Python truthiness), the cached table is returned. -/
def analysisLookup (cfg : Config) (fs : FS) (now : Int) (category : String) :
    Option (List (String × Nat)) :=
  if is_cache_valid cfg fs now (cache_filename cfg category "analysis") then
    match (load_cache fs (cache_filename cfg category "analysis")).word_frequencies with
    | some (x :: xs) => some (x :: xs)
    | _ => none
  else none

/-- The analysis-kind cache document written by `analyze_category`
(lines 297-304). -/
def mk_analysis_data (category : String) (word_freq : List (String × Nat))
    (now : Int) (processed_pages : Nat) : CacheDoc :=
  { category := some category, word_frequencies := some word_freq,
    analyzed_at := some now, total_pages_processed := some processed_pages,
    total_unique_words := some word_freq.length,
    total_word_occurrences := some (word_freq.map (fun p => p.2)).sum }

/-- The aggregation loop of `analyze_category` (lines 261-308), given the
member titles: return the empty table immediately when there are none
(writing no analysis document); else fetch each page's content (one
capability call per title), tokenize non-empty content, count word
occurrences across all pages, and write the analysis-kind cache document
capturing the table plus summary statistics. -/
def aggregate (cfg : Config) (o : Oracle) (now : Int) (category : String)
    (titles : List String) (fs1 : FS) (r1 : Nat) : List (String × Nat) × FS × Nat :=
  if titles.isEmpty then ([], fs1, r1)
  else
    (counter (titles.flatMap (pageWords o)),
     save_cache fs1 now (cache_filename cfg category "analysis")
       (mk_analysis_data category (counter (titles.flatMap (pageWords o))) now
         ((titles.filter (fun t => !(o.content t).isEmpty)).length)),
     r1 + titles.length)

/-- Embedding of `analyze_category` (lines 241-308): serve a valid non-empty
cached analysis with zero network calls; otherwise obtain the member titles
(cache-aware) and run the aggregation loop.  Returns (frequency table, new
file system, number of network capability calls). -/
def analyze_category (cfg : Config) (o : Oracle) (now : Int) (fs : FS)
    (category : String) : List (String × Nat) × FS × Nat :=
  match analysisLookup cfg fs now category with
  | some tbl => (tbl, fs, 0)
  | none =>
    match get_category_members cfg o now fs category with
    | (titles, fs1, r1) => aggregate cfg o now category titles fs1 r1

/-- File-system operations that `_save_cache` (lines 95-101) performs, at the
granularity relevant to interruption: `open(cache_file, 'w')` truncates the
target in place, and the subsequent `json.dump` fills it.  A rename operation
is included in the step language so that "the code performs no rename" is a
statement about the trace, not about the vocabulary. -/
inductive FsStep : Type
  | openTruncate (path : String)
  | writeAll (path : String) (data : CacheDoc)
  | rename (src dst : String)
deriving Repr, DecidableEq

/-- The path a step writes to. -/
def FsStep.target : FsStep → String
  | FsStep.openTruncate p => p
  | FsStep.writeAll p _ => p
  | FsStep.rename _ dst => dst

/-- Whether a step is a rename. -/
def FsStep.isRename : FsStep → Bool
  | FsStep.rename _ _ => true
  | _ => false

/-- The exact step sequence of `_save_cache` (lines 97-99): open the final
cache path with mode "w" (truncating whatever was there), then dump the JSON
document into it.  No temporary path, no rename. -/
def save_cache_steps (cache_file : String) (data : CacheDoc) : List FsStep :=
  [FsStep.openTruncate cache_file, FsStep.writeAll cache_file data]

/-- Effect of one file-system step.  A truncated file (opened but not fully
written) holds content that does not parse as JSON. -/
def applyFsStep (now : Int) (fs : FS) : FsStep → FS
  | FsStep.openTruncate p => FS.set fs p (FileContent.malformed, now)
  | FsStep.writeAll p d => FS.set fs p (FileContent.json d, now)
  | FsStep.rename src dst =>
    fun k => if k = dst then fs src else if k = src then none else fs k

/-- Effect of a sequence of file-system steps. -/
def runFsSteps (now : Int) (fs : FS) (steps : List FsStep) : FS :=
  steps.foldl (applyFsStep now) fs

/-- Fixed ordered color lists of color_palette.py. -/
def pastel_colors : List String :=
  ["#ffe6e6", "#ffd7be", "#ffffb3", "#c9e4ca", "#b2bec3", "#eaebef"]

/-- BrightPalette colors. -/
def bright_colors : List String :=
  ["#ff69b4", "#ffb31a", "#ffff00", "#33cc33", "#0099cc", "#6600cc"]

/-- DarkPalette colors. -/
def dark_colors : List String :=
  ["#333333", "#666666", "#999999", "#cccccc", "#b3b3b3", "#e6e6e6"]

/-- NeutralPalette colors. -/
def neutral_colors : List String :=
  ["#f5f5f5", "#e5e5e5", "#d3d3d3", "#bdbdbd", "#9c9c9c", "#808080"]

/-- RGBPalette colors. -/
def rgb_colors : List String :=
  ["#ff0000", "#00ff00", "#0000ff", "#ffff00", "#ff00ff", "#00ffff"]

/-- Embedding of `get_all_color_palettes` (color_palette.py lines 25-32) as a
mapping from palette name to its fixed ordered color list. -/
def get_all_color_palettes : List (String × List String) :=
  [("pastel", pastel_colors), ("bright", bright_colors), ("dark", dark_colors),
   ("neutral", neutral_colors), ("rgb", rgb_colors)]

/-- Palette selection with fallback (app.py lines 138-141): an unknown
palette name falls back to "pastel". -/
def selectPalette (palette_name : String) : List String :=
  match get_all_color_palettes.lookup palette_name with
  | some colors => colors
  | none => pastel_colors

/-- One entry of the word-cloud JSON response (app.py lines 159-164). -/
structure CloudWord : Type where
  text : String
  size : Nat
  frequency : Nat
  color : String
deriving Repr, DecidableEq

/-- Frequency-descending comparison used by
`sorted(word_freq.items(), key=lambda x: x[1], reverse=True)`: a may be
placed before b iff b's count is at most a's count; with this relation a
stable sort reproduces Python's stable descending sort exactly. -/
def freqDescRel (a b : String × Nat) : Prop := b.2 ≤ a.2

instance : DecidableRel freqDescRel := fun a b => Nat.decLe b.2 a.2

instance : IsTotal (String × Nat) freqDescRel := ⟨fun a b => le_total b.2 a.2⟩

instance : IsTrans (String × Nat) freqDescRel :=
  ⟨fun _ _ _ hab hbc => le_trans hbc hab⟩

/-- Embedding of the word-cloud shaping in `get_word_cloud_data` (app.py
lines 137-166), given the already-computed frequency table in insertion
order: select the palette (fallback "pastel"), stable-sort the entries by
descending frequency (Python's sorted is stable; modelled by Mathlib's stable
insertion sort), keep the top 100, then map each retained entry to a display
entry whose size linearly normalizes the frequency into the 10-100 range
(`int(10 + 90*(freq-min)/range)`; exact integer arithmetic with floor
division models Python's float formula at these magnitudes) and whose color
cycles through the palette by rank index. -/
def word_cloud_entries (word_freq : List (String × Nat)) (palette_name : String) :
    List CloudWord :=
  let colors := selectPalette palette_name
  let sorted_words := List.insertionSort freqDescRel word_freq
  let top_words := sorted_words.take 100
  match top_words with
  | [] => []
  | t :: ts =>
    let max_freq := t.2
    let min_freq := ((t :: ts).getLast (List.cons_ne_nil t ts)).2
    let freq_range := if max_freq ≠ min_freq then max_freq - min_freq else 1
    (t :: ts).enum.map (fun p =>
      { text := p.2.1, size := 10 + 90 * (p.2.2 - min_freq) / freq_range,
        frequency := p.2.2, color := colors.getD (p.1 % colors.length) "" })

/-- Fixture: the default configuration (cache dir "cache", expiry 7 days). -/
def cfg7 : Config := {}

/-- Fixture: a configuration with expiry 0 (the --no-cache setting). -/
def cfg0 : Config := { cache_expiry_days := 0 }

/-- Fixture: remote data for a category with no member pages. -/
def oracleEmptyCat : Oracle := { members := fun _ => [], content := fun _ => "" }

/-- Fixture: remote data for a category with two member pages with fixed
text. -/
def oracleTwoPages : Oracle :=
  { members := fun _ => ["Page A", "Page B"],
    content := fun t =>
      if t == "Page A" then "Alpha beta gamma alpha" else "Gamma gamma delta" }

/-- Fixture: a file system holding one well-formed cache file written at time
3. -/
def fsOneDoc : FS := FS.set emptyFS "cache/doc.json" (FileContent.json emptyDoc, 3)

/-- Fixture: a file system holding one malformed cache file. -/
def fsMalformed : FS := FS.set emptyFS "cache/bad.json" (FileContent.malformed, 3)

/-- Fixture: the analysis cache file of the "Machine_learning" category
under the default configuration. -/
def c6_file : String := cache_filename cfg7 "Machine_learning" "analysis"

/-- Fixture: an analysis document being saved. -/
def c6_doc : CacheDoc := mk_analysis_data "Machine_learning" [("alpha", 5), ("beta", 3)] 0 2

/-- Fixture: the file-system state left by a save of c6_doc interrupted
right after the truncating open (before json.dump finished). -/
def c6_crash_fs : FS := runFsSteps 0 emptyFS ((save_cache_steps c6_file c6_doc).take 1)

/-- Fixture: the first entry of the word cloud of a two-entry table whose
words share one frequency. -/
def c10_entry : CloudWord :=
  (word_cloud_entries [("aa", 4), ("bb", 4)] "pastel").headD
    { text := "", size := 0, frequency := 0, color := "" }

/-- Alphabetic characters are word characters. -/
theorem isWordChar_of_isAlpha {c : Char} (h : c.isAlpha = true) : isWordChar c = true := by
  simp [isWordChar, Char.isAlphanum, h]

/-- takeWhile over an append whose left part wholly satisfies the predicate. -/
theorem takeWhile_append_of_all {p : Char → Bool} {l₁ : List Char} (l₂ : List Char)
    (h : ∀ x ∈ l₁, p x = true) :
    (l₁ ++ l₂).takeWhile p = l₁ ++ l₂.takeWhile p := by
  induction l₁ with
  | nil => simp
  | cons a l ih =>
    have ha : p a = true := h a (List.mem_cons_self a l)
    simp only [List.cons_append, List.takeWhile_cons, ha, if_true]
    rw [ih (fun x hx => h x (List.mem_cons_of_mem a hx))]

/-- dropWhile over an append whose left part wholly satisfies the predicate. -/
theorem dropWhile_append_of_all {p : Char → Bool} {l₁ : List Char} (l₂ : List Char)
    (h : ∀ x ∈ l₁, p x = true) :
    (l₁ ++ l₂).dropWhile p = l₂.dropWhile p := by
  induction l₁ with
  | nil => simp
  | cons a l ih =>
    have ha : p a = true := h a (List.mem_cons_self a l)
    simp only [List.cons_append, List.dropWhile_cons, ha, if_true]
    exact ih (fun x hx => h x (List.mem_cons_of_mem a hx))

/-- The head of a non-empty dropWhile residue fails the predicate. -/
theorem head_dropWhile_false {p : Char → Bool} {l : List Char} {d : Char} {ds : List Char}
    (h : l.dropWhile p = d :: ds) : p d = false := by
  have h' := List.head?_dropWhile_not p l
  rw [h] at h'
  simpa using h'

/-- Run-phase characterization of the scanner: from state inRun it consumes
the maximal alphabetic run ahead, then either finishes, rejects the candidate
(digit or underscore adjacent on the right), or emits it. -/
theorem scanWords_inRun (cs : List Char) : ∀ acc : List Char,
    scanWords (ScanState.inRun acc) cs =
      match cs.dropWhile Char.isAlpha with
      | [] => [acc.reverse ++ cs.takeWhile Char.isAlpha]
      | d :: ds =>
        if isWordChar d then scanWords (ScanState.out true) ds
        else (acc.reverse ++ cs.takeWhile Char.isAlpha) :: scanWords (ScanState.out false) ds := by
  induction cs with
  | nil => intro acc; simp [scanWords]
  | cons c cs ih =>
    intro acc
    by_cases hc : c.isAlpha
    · simp only [scanWords, hc, if_true, List.dropWhile_cons, List.takeWhile_cons]
      rw [ih (c :: acc)]
      cases hd : cs.dropWhile Char.isAlpha with
      | nil => simp
      | cons d ds => by_cases wd : isWordChar d <;> simp [wd]
    · have hc' : c.isAlpha = false := by simpa using hc
      simp only [scanWords, hc', Bool.false_and, if_false, List.dropWhile_cons,
        List.takeWhile_cons, if_neg, Bool.not_eq_true]
      by_cases wc : isWordChar c <;> simp [wc, hc']

/-- After a failed boundary the scanner just looks for the next non-word
character: scanning from state (out true) equals scanning from a clean state
after discarding the pending word-character block. -/
theorem scanWords_out_true (s : List Char) :
    scanWords (ScanState.out true) s =
      scanWords (ScanState.out false) (s.dropWhile isWordChar) := by
  induction s with
  | nil => simp [scanWords]
  | cons c cs ih =>
    by_cases wc : isWordChar c
    · have step : scanWords (ScanState.out true) (c :: cs)
          = scanWords (ScanState.out true) cs := by
        by_cases hc : c.isAlpha <;> simp [scanWords, hc, wc]
      rw [step, ih]
      simp [List.dropWhile_cons, wc]
    · have hc : c.isAlpha = false := by
        cases ha : c.isAlpha
        · rfl
        · exact absurd (isWordChar_of_isAlpha ha) wc
      have wc' : isWordChar c = false := by simpa using wc
      simp [scanWords, hc, wc', List.dropWhile_cons]

/-- Core tokenizer characterization: the regex scanner emits exactly the
maximal word-character runs that consist purely of alphabetic characters. -/
theorem scanWords_eq_wordRuns_filter :
    ∀ (n : Nat) (s : List Char), s.length ≤ n →
      scanWords (ScanState.out false) s
        = (wordRuns s).filter (fun r => r.all Char.isAlpha) := by
  intro n
  induction n with
  | zero =>
    intro s hs
    have : s = [] := List.length_eq_zero.mp (Nat.le_zero.mp hs)
    subst this
    simp [scanWords, wordRuns]
  | succ n ih =>
    intro s hs
    match s with
    | [] => simp [scanWords, wordRuns]
    | c :: cs =>
      have hcs : cs.length ≤ n := by
        simpa using Nat.succ_le_succ_iff.mp (by simpa using hs)
      by_cases hw : isWordChar c
      · by_cases ha : c.isAlpha
        · have lhs0 : scanWords (ScanState.out false) (c :: cs)
              = scanWords (ScanState.inRun [c]) cs := by simp [scanWords, ha]
          rw [lhs0, scanWords_inRun]
          cases hd : cs.dropWhile Char.isAlpha with
          | nil =>
            have hall : ∀ x ∈ cs, x.isAlpha = true := List.dropWhile_eq_nil_iff.mp hd
            have htw : cs.takeWhile Char.isAlpha = cs := by
              have h0 := List.takeWhile_append_dropWhile Char.isAlpha cs
              rw [hd] at h0
              simpa using h0
            have hallw : ∀ x ∈ cs, isWordChar x = true :=
              fun x hx => isWordChar_of_isAlpha (hall x hx)
            have hdw : cs.dropWhile isWordChar = [] := List.dropWhile_eq_nil_iff.mpr hallw
            have htww : cs.takeWhile isWordChar = cs := by
              have h0 := List.takeWhile_append_dropWhile isWordChar cs
              rw [hdw] at h0
              simpa using h0
            have hrun : ((c :: cs).all Char.isAlpha) = true := by
              simp only [List.all_cons, ha, Bool.true_and]
              exact List.all_eq_true.mpr hall
            simp only [wordRuns, hw, if_true, htww, hdw, htw]
            simp [List.filter_cons, wordRuns, hrun]
          | cons d ds =>
            have hdal : d.isAlpha = false := head_dropWhile_false hd
            have hdecomp : cs = cs.takeWhile Char.isAlpha ++ d :: ds := by
              conv_lhs => rw [← List.takeWhile_append_dropWhile Char.isAlpha cs]
              rw [hd]
            have hta : ∀ x ∈ cs.takeWhile Char.isAlpha, x.isAlpha = true :=
              fun _ hx => List.mem_takeWhile_imp hx
            have htaw : ∀ x ∈ cs.takeWhile Char.isAlpha, isWordChar x = true :=
              fun x hx => isWordChar_of_isAlpha (hta x hx)
            have hdslen : ds.length < cs.length := by
              conv_rhs => rw [hdecomp]
              simp only [List.length_append, List.length_cons]
              omega
            by_cases wd : isWordChar d
            · simp only [wd, if_true]
              rw [scanWords_out_true]
              have hlen : (ds.dropWhile isWordChar).length ≤ n :=
                le_trans ((List.dropWhile_sublist _).length_le) (by omega)
              rw [ih _ hlen]
              have htw2 : cs.takeWhile isWordChar
                  = cs.takeWhile Char.isAlpha ++ d :: ds.takeWhile isWordChar := by
                conv_lhs => rw [hdecomp]
                rw [takeWhile_append_of_all _ htaw]
                simp [List.takeWhile_cons, wd]
              have hdw2 : cs.dropWhile isWordChar = ds.dropWhile isWordChar := by
                conv_lhs => rw [hdecomp]
                rw [dropWhile_append_of_all _ htaw]
                simp [List.dropWhile_cons, wd]
              have hrun : ((c :: (cs.takeWhile Char.isAlpha ++ d :: ds.takeWhile isWordChar)).all
                  Char.isAlpha) = false := by
                apply List.all_eq_false.mpr
                exact ⟨d, by simp, by simp [hdal]⟩
              simp only [wordRuns, hw, if_true, htw2, hdw2]
              simp [List.filter_cons, hrun]
            · have wd' : isWordChar d = false := by simpa using wd
              simp only [wd', Bool.false_eq_true, if_false]
              have hlen : ds.length ≤ n := by omega
              rw [ih _ hlen]
              have htw2 : cs.takeWhile isWordChar = cs.takeWhile Char.isAlpha := by
                conv_lhs => rw [hdecomp]
                rw [takeWhile_append_of_all _ htaw]
                simp [List.takeWhile_cons, wd']
              have hdw2 : cs.dropWhile isWordChar = d :: ds := by
                conv_lhs => rw [hdecomp]
                rw [dropWhile_append_of_all _ htaw]
                simp [List.dropWhile_cons, wd']
              have hwr : wordRuns (d :: ds) = wordRuns ds := by
                simp [wordRuns, wd']
              have hrun : ((c :: cs.takeWhile Char.isAlpha).all Char.isAlpha) = true := by
                simp only [List.all_cons, ha, Bool.true_and]
                exact List.all_eq_true.mpr hta
              simp only [wordRuns, hw, if_true, htw2, hdw2, hwr]
              simp [List.filter_cons, hrun]
        · have ha' : c.isAlpha = false := by simpa using ha
          have lhs0 : scanWords (ScanState.out false) (c :: cs)
              = scanWords (ScanState.out true) cs := by simp [scanWords, ha', hw]
          rw [lhs0, scanWords_out_true]
          have hlen : (cs.dropWhile isWordChar).length ≤ n :=
            le_trans ((List.dropWhile_sublist _).length_le) hcs
          rw [ih _ hlen]
          have hrun : ((c :: cs.takeWhile isWordChar).all Char.isAlpha) = false := by
            apply List.all_eq_false.mpr
            exact ⟨c, by simp, by simp [ha']⟩
          simp only [wordRuns, hw, if_true]
          simp [List.filter_cons, hrun]
      · have hw' : isWordChar c = false := by simpa using hw
        have ha' : c.isAlpha = false := by
          cases hA : c.isAlpha
          · rfl
          · exact absurd (isWordChar_of_isAlpha hA) hw
        have lhs0 : scanWords (ScanState.out false) (c :: cs)
            = scanWords (ScanState.out false) cs := by simp [scanWords, ha', hw']
        rw [lhs0, ih _ hcs]
        simp [wordRuns, hw']

/-- The tokenizer agrees with its corrected specification on every input. -/
theorem extract_words_eq_spec (text : String) :
    extract_words text = extract_words_spec text := by
  unfold extract_words extract_words_spec
  by_cases h : text.isEmpty
  · have h0 : text = "" := (String.isEmpty_iff text).mp h
    subst h0
    simp only [h, if_true]
    have h1 : "".toList.map Char.toLower = [] := by rfl
    rw [h1]
    simp [wordRuns]
  · simp only [h, Bool.false_eq_true, if_false]
    rw [scanWords_eq_wordRuns_filter (text.toList.map Char.toLower).length _ le_rfl]

/-- C3 counterexample: the claim's literal boundary rule ("no alphabetic
character immediately preceding or following") retains every maximal
alphabetic run, so on the input "dog123" it yields the token "dog" (length 3,
not a stop word); the code yields no token at all, because the adjacent digit
is a word character and the regex word boundary fails. -/
theorem claim_C3_counterexample :
    extract_words_claimed "dog123" = ["dog"] ∧ extract_words "dog123" = [] := by
  constructor
  · unfold extract_words_claimed
    have h : "dog123".toList.map Char.toLower = ['d', 'o', 'g', '1', '2', '3'] := by rfl
    rw [h]
    simp +decide [alphaRuns, keepWord, STOP_WORDS]
  · rfl

/-- C3 amended: for every ASCII input text (every character below code
point 128 - the domain on which the embedded tokenizer is exactly the
program's; on non-ASCII text the Unicode-aware word-character class blocks
further boundaries, e.g. "dogé" yields no token in CPython), extract_words
lower-cases the text and returns, in input order, exactly the maximal runs
of ASCII alphabetic characters that have no word character (letter, digit,
or underscore) immediately preceding or following them - equivalently, the
maximal word-character runs made purely of alphabetic characters -
excluding stop words and tokens shorter than 3 characters; on the input
"The Quick-Fox jumps!! over THE lazy dog123" the retained tokens are
exactly "quick", "fox", "jumps", "over", "lazy"; in particular "dog" is not
retained because the adjacent digits in "dog123" break the boundary. -/
theorem claim_C3_tokenizer :
    (∀ text : String, (∀ c ∈ text.toList, c.toNat < 128) →
        extract_words text = extract_words_spec text)
      ∧ extract_words "The Quick-Fox jumps!! over THE lazy dog123"
          = ["quick", "fox", "jumps", "over", "lazy"] := by
  exact ⟨fun text _ => extract_words_eq_spec text, rfl⟩

/-- C3 witness: the amended theorem applied to the claim's example sentence,
whose characters are all ASCII. -/
theorem claim_C3_witness :
    extract_words "The Quick-Fox jumps!! over THE lazy dog123"
      = extract_words_spec "The Quick-Fox jumps!! over THE lazy dog123" :=
  claim_C3_tokenizer.1 "The Quick-Fox jumps!! over THE lazy dog123" (by decide)

/-- The fuel argument of firstOccurAux is irrelevant once it covers the list
length. -/
theorem firstOccurAux_fuel :
    ∀ (n m : Nat) (l : List String), m ≤ n → l.length ≤ m →
      firstOccurAux m l = firstOccurAux l.length l := by
  intro n
  induction n with
  | zero =>
    intro m l hm hl
    have hm0 : m = 0 := Nat.le_zero.mp hm
    subst hm0
    have : l = [] := List.length_eq_zero.mp (Nat.le_zero.mp hl)
    subst this
    rfl
  | succ n ih =>
    intro m l hm hl
    match l with
    | [] => cases m <;> rfl
    | x :: xs =>
      match m, hm, hl with
      | m' + 1, hm, hl =>
        have hxs : xs.length ≤ m' := by simpa using Nat.succ_le_succ_iff.mp (by simpa using hl)
        have hfl : (xs.filter (fun y => y != x)).length ≤ xs.length :=
          List.length_filter_le _ _
        show x :: firstOccurAux m' (xs.filter (fun y => y != x))
          = x :: firstOccurAux xs.length (xs.filter (fun y => y != x))
        have h1 : firstOccurAux m' (xs.filter (fun y => y != x))
            = firstOccurAux (xs.filter (fun y => y != x)).length
                (xs.filter (fun y => y != x)) :=
          ih m' _ (Nat.succ_le_succ_iff.mp hm) (le_trans hfl hxs)
        have h2 : firstOccurAux xs.length (xs.filter (fun y => y != x))
            = firstOccurAux (xs.filter (fun y => y != x)).length
                (xs.filter (fun y => y != x)) :=
          ih xs.length _ (le_trans hxs (Nat.succ_le_succ_iff.mp hm)) hfl
        rw [h1, h2]

/-- firstOccur on the empty list. -/
theorem firstOccur_nil : firstOccur [] = [] := rfl

/-- Unfolding equation of firstOccur: the head, then the first occurrences of
the tail with every copy of the head removed. -/
theorem firstOccur_cons (x : String) (xs : List String) :
    firstOccur (x :: xs) = x :: firstOccur (xs.filter (fun y => y != x)) := by
  show x :: firstOccurAux xs.length (xs.filter (fun y => y != x)) = _
  rw [firstOccur]
  rw [firstOccurAux_fuel xs.length xs.length _ le_rfl (List.length_filter_le _ _)]

/-- Every key produced by firstOccur occurs in the list. -/
theorem firstOccur_subset : ∀ (n : Nat) (l : List String), l.length ≤ n →
    ∀ w ∈ firstOccur l, w ∈ l := by
  intro n
  induction n with
  | zero =>
    intro l hl
    have : l = [] := List.length_eq_zero.mp (Nat.le_zero.mp hl)
    subst this
    simp [firstOccur_nil]
  | succ n ih =>
    intro l hl
    match l with
    | [] => simp [firstOccur_nil]
    | x :: xs =>
      intro w hw
      rw [firstOccur_cons] at hw
      rcases List.mem_cons.mp hw with h | h
      · simp [h]
      · have hlen : (xs.filter (fun y => y != x)).length ≤ n :=
          le_trans (List.length_filter_le _ _) (by simpa using Nat.succ_le_succ_iff.mp (by simpa using hl))
        have := ih _ hlen w h
        exact List.mem_cons_of_mem x (List.mem_of_mem_filter this)

/-- Summing the counts over the distinct keys recovers the length of the
word stream. -/
theorem counter_sum_eq_length : ∀ (n : Nat) (l : List String), l.length ≤ n →
    ((counter l).map (fun p => p.2)).sum = l.length := by
  intro n
  induction n with
  | zero =>
    intro l hl
    have : l = [] := List.length_eq_zero.mp (Nat.le_zero.mp hl)
    subst this
    simp [counter, firstOccur_nil]
  | succ n ih =>
    intro l hl
    match l with
    | [] => simp [counter, firstOccur_nil]
    | x :: xs =>
      have hxs : xs.length ≤ n := by simpa using Nat.succ_le_succ_iff.mp (by simpa using hl)
      have hfl : (xs.filter (fun y => y != x)).length ≤ n :=
        le_trans (List.length_filter_le _ _) hxs
      have hmap :
          (firstOccur (xs.filter (fun y => y != x))).map (fun w => (x :: xs).count w)
            = (firstOccur (xs.filter (fun y => y != x))).map
                (fun w => (xs.filter (fun y => y != x)).count w) := by
        apply List.map_congr_left
        intro w hw
        have hwmem : w ∈ xs.filter (fun y => y != x) :=
          firstOccur_subset n _ hfl w hw
        have hne : w ≠ x := by
          have := List.of_mem_filter hwmem
          simpa using this
        rw [List.count_cons_of_ne hne]
        exact (List.count_filter (by simpa using hne)).symm
      have hih := ih _ hfl
      rw [counter, firstOccur_cons]
      simp only [List.map_cons, List.map_map, List.sum_cons, Function.comp_def]
      rw [hmap]
      have htail : ((firstOccur (xs.filter (fun y => y != x))).map
          (fun w => (xs.filter (fun y => y != x)).count w)).sum
            = (xs.filter (fun y => y != x)).length := by
        rw [counter, List.map_map] at hih
        simpa [Function.comp_def] using hih
      rw [htail]
      have hsplit : ∀ ys : List String,
          ys.count x + (ys.filter (fun y => y != x)).length = ys.length := by
        intro ys
        induction ys with
        | nil => simp
        | cons a ys ihy =>
          by_cases hax : a = x
          · subst hax
            have hbne : (a != a) = false := by simp
            simp only [List.count_cons_self, List.filter_cons, hbne, Bool.false_eq_true,
              if_false, List.length_cons]
            omega
          · have h1 : (a != x) = true := by simpa using hax
            rw [List.count_cons_of_ne (Ne.symm hax)]
            simp only [List.filter_cons, h1, if_true, List.length_cons]
            omega
      have hs := hsplit xs
      rw [List.count_cons_self]
      simp only [List.length_cons]
      omega

/-- Every entry of the frequency table records the genuine multiplicity of a
word that occurs in the stream; in particular every count is positive. -/
theorem counter_mem_spec (l : List String) :
    ∀ p ∈ counter l, p.1 ∈ l ∧ p.2 = l.count p.1 ∧ 1 ≤ p.2 := by
  intro p hp
  rw [counter] at hp
  rcases List.mem_map.mp hp with ⟨w, hw, hEq⟩
  have hmem : w ∈ l := firstOccur_subset l.length l le_rfl w hw
  subst hEq
  refine ⟨hmem, rfl, ?_⟩
  exact List.count_pos_iff.mpr hmem

/-- Reading the file just written. -/
theorem FS.set_self (fs : FS) (file : String) (v : FileContent × Int) :
    FS.set fs file v file = some v := by
  simp [FS.set]

/-- Writing one file leaves every other file unchanged. -/
theorem FS.set_other (fs : FS) (file : String) (v : FileContent × Int) {k : String}
    (h : k ≠ file) : FS.set fs file v k = fs k := by
  simp [FS.set, h]

/-- The analysis-kind and members-kind cache files of a category are distinct
paths (their kind suffixes have different lengths). -/
theorem cache_filename_analysis_ne_members (cfg : Config) (category : String) :
    cache_filename cfg category "analysis" ≠ cache_filename cfg category "members" := by
  intro h
  have hlen := congrArg String.length h
  simp only [cache_filename, String.length_append] at hlen
  have h8 : "analysis".length = 8 := rfl
  have h7 : "members".length = 7 := rfl
  rw [h8, h7] at hlen
  omega

/-- The analysis-cache lookup reads only the analysis cache file. -/
theorem analysisLookup_congr {cfg : Config} {fs fs' : FS} {now : Int} {category : String}
    (h : fs (cache_filename cfg category "analysis")
      = fs' (cache_filename cfg category "analysis")) :
    analysisLookup cfg fs now category = analysisLookup cfg fs' now category := by
  simp only [analysisLookup, is_cache_valid, load_cache, h]

/-- The members-cache lookup reads only the members cache file. -/
theorem membersLookup_congr {cfg : Config} {fs fs' : FS} {now : Int} {category : String}
    (h : fs (cache_filename cfg category "members")
      = fs' (cache_filename cfg category "members")) :
    membersLookup cfg fs now category = membersLookup cfg fs' now category := by
  simp only [membersLookup, is_cache_valid, load_cache, h]

/-- A members-cache hit always carries a non-empty page list (the Python
truthiness check on `cached_data.get('pages')`). -/
theorem membersLookup_nonempty {cfg : Config} {fs : FS} {now : Int} {category : String}
    {pages : List String} (h : membersLookup cfg fs now category = some pages) :
    pages ≠ [] := by
  unfold membersLookup at h
  split at h
  · rcases hp : (load_cache fs (cache_filename cfg category "members")).pages with _ | l
    · rw [hp] at h
      simp at h
    · rcases l with _ | ⟨p, ps⟩
      · rw [hp] at h
        simp at h
      · rw [hp] at h
        simp at h
        subst h
        simp
  · simp at h

/-- A freshly written cache file is valid whenever the expiry is positive. -/
theorem is_cache_valid_fresh {cfg : Config} (fs : FS) (now : Int) (file : String)
    (d : CacheDoc) (hE : 1 ≤ cfg.cache_expiry_days) :
    is_cache_valid cfg (save_cache fs now file d) now file = true := by
  simp only [is_cache_valid, save_cache, FS.set_self, secondsPerDay, decide_eq_true_eq]
  have h1 : (1 : Int) ≤ (cfg.cache_expiry_days : Int) := by exact_mod_cast hE
  omega

/-- Loading the file just saved returns the document just saved. -/
theorem load_cache_save_self (fs : FS) (now : Int) (file : String) (d : CacheDoc) :
    load_cache (save_cache fs now file d) file = d := by
  simp [load_cache, save_cache, FS.set]

/-- After writing a fresh non-empty analysis document (positive expiry), the
analysis lookup serves exactly that table. -/
theorem analysisLookup_save_nonempty {cfg : Config} (fs : FS) (now : Int)
    (category : String) {tbl : List (String × Nat)} (pp : Nat)
    (hE : 1 ≤ cfg.cache_expiry_days) (hne : tbl ≠ []) :
    analysisLookup cfg
      (save_cache fs now (cache_filename cfg category "analysis")
        (mk_analysis_data category tbl now pp)) now category = some tbl := by
  unfold analysisLookup
  rw [is_cache_valid_fresh fs now _ _ hE]
  rw [load_cache_save_self]
  match tbl, hne with
  | x :: xs, _ => simp [mk_analysis_data]

/-- After writing a fresh empty analysis document, the analysis lookup still
misses (Python truthiness of an empty dict). -/
theorem analysisLookup_save_nil {cfg : Config} (fs : FS) (now : Int)
    (category : String) (pp : Nat) :
    analysisLookup cfg
      (save_cache fs now (cache_filename cfg category "analysis")
        (mk_analysis_data category [] now pp)) now category = none := by
  unfold analysisLookup
  rw [load_cache_save_self]
  simp [mk_analysis_data]

/-- After writing a fresh non-empty members document (positive expiry), the
members lookup serves exactly those pages. -/
theorem membersLookup_save_nonempty {cfg : Config} (fs : FS) (now : Int)
    (category : String) {pages : List String}
    (hE : 1 ≤ cfg.cache_expiry_days) (hne : pages ≠ []) :
    membersLookup cfg
      (save_cache fs now (cache_filename cfg category "members")
        (mk_members_data category pages now)) now category = some pages := by
  unfold membersLookup
  rw [is_cache_valid_fresh fs now _ _ hE]
  rw [load_cache_save_self]
  match pages, hne with
  | p :: ps, _ => simp [mk_members_data]

/-- After writing a fresh empty members document, the members lookup still
misses (Python truthiness of an empty list), so a later call re-fetches. -/
theorem membersLookup_save_nil {cfg : Config} (fs : FS) (m now : Int) (category : String) :
    membersLookup cfg
      (save_cache fs m (cache_filename cfg category "members")
        (mk_members_data category [] m)) now category = none := by
  unfold membersLookup
  rw [load_cache_save_self]
  simp [mk_members_data]

/-- Saving the members cache file does not change the analysis lookup. -/
theorem analysisLookup_save_members {cfg : Config} (fs : FS) (now m : Int)
    (category : String) (d : CacheDoc) :
    analysisLookup cfg
      (save_cache fs m (cache_filename cfg category "members") d) now category
      = analysisLookup cfg fs now category := by
  apply analysisLookup_congr
  exact FS.set_other fs _ _ (cache_filename_analysis_ne_members cfg category)

/-- Saving the analysis cache file does not change the members lookup. -/
theorem membersLookup_save_analysis {cfg : Config} (fs : FS) (now m : Int)
    (category : String) (d : CacheDoc) :
    membersLookup cfg
      (save_cache fs m (cache_filename cfg category "analysis") d) now category
      = membersLookup cfg fs now category := by
  apply membersLookup_congr
  exact FS.set_other fs _ _
    (Ne.symm (cache_filename_analysis_ne_members cfg category))

/-- A non-empty list is not isEmpty. -/
theorem isEmpty_false_of_ne_nil {α : Type} {l : List α} (h : l ≠ []) :
    l.isEmpty = false := by
  cases l with
  | nil => exact absurd rfl h
  | cons a l => rfl

/-- Reduction: a valid non-empty cached analysis is served as-is, with zero
network calls and no state change. -/
theorem analyze_category_hit {cfg : Config} (o : Oracle) {now : Int} {fs : FS}
    {category : String} {tbl : List (String × Nat)}
    (h : analysisLookup cfg fs now category = some tbl) :
    analyze_category cfg o now fs category = (tbl, fs, 0) := by
  unfold analyze_category
  rw [h]

/-- Reduction: on an analysis-cache miss the pipeline aggregates over the
member titles. -/
theorem analyze_category_miss {cfg : Config} (o : Oracle) {now : Int} {fs : FS}
    {category : String}
    (h : analysisLookup cfg fs now category = none) :
    analyze_category cfg o now fs category
      = aggregate cfg o now category
          (get_category_members cfg o now fs category).1
          (get_category_members cfg o now fs category).2.1
          (get_category_members cfg o now fs category).2.2 := by
  unfold analyze_category
  rw [h]

/-- Reduction: a valid non-empty members cache serves the cached titles. -/
theorem get_category_members_hit {cfg : Config} (o : Oracle) {now : Int} {fs : FS}
    {category : String} {pages : List String}
    (h : membersLookup cfg fs now category = some pages) :
    get_category_members cfg o now fs category = (pages, fs, 0) := by
  unfold get_category_members
  rw [h]

/-- Reduction: a members-cache miss fetches the full list (one capability
call) and writes a fresh members document, even when empty. -/
theorem get_category_members_miss {cfg : Config} (o : Oracle) {now : Int} {fs : FS}
    {category : String}
    (h : membersLookup cfg fs now category = none) :
    get_category_members cfg o now fs category
      = (o.members category,
         save_cache fs now (cache_filename cfg category "members")
           (mk_members_data category (o.members category) now), 1) := by
  unfold get_category_members
  rw [h]

/-- Reduction: aggregation over an empty title list returns the empty table
and writes nothing. -/
theorem aggregate_nil {cfg : Config} {o : Oracle} {now : Int} {category : String}
    {fs1 : FS} {r1 : Nat} :
    aggregate cfg o now category [] fs1 r1 = ([], fs1, r1) := rfl

/-- Reduction: aggregation over a non-empty title list fetches every page,
counts the words, and writes the analysis document. -/
theorem aggregate_ne_nil {cfg : Config} {o : Oracle} {now : Int} {category : String}
    {titles : List String} {fs1 : FS} {r1 : Nat} (h : titles ≠ []) :
    aggregate cfg o now category titles fs1 r1
      = (counter (titles.flatMap (pageWords o)),
         save_cache fs1 now (cache_filename cfg category "analysis")
           (mk_analysis_data category (counter (titles.flatMap (pageWords o))) now
             ((titles.filter (fun t => !(o.content t).isEmpty)).length)),
         r1 + titles.length) := by
  unfold aggregate
  rw [isEmpty_false_of_ne_nil h]
  rfl

/-- C1 counterexample: with the default expiry of 7 days (E > 0) and a
category whose member fetch yields zero titles, the first call returns the
empty table and the second call in succession still performs one network
request (the claim asserts the second call performs zero requests for every
category). -/
theorem claim_C1_counterexample :
    cfg7.cache_expiry_days = 7
      ∧ (analyze_category cfg7 oracleEmptyCat 0 emptyFS "Empty_cat").1 = []
      ∧ (analyze_category cfg7 oracleEmptyCat 0
          (analyze_category cfg7 oracleEmptyCat 0 emptyFS "Empty_cat").2.1
          "Empty_cat").2.2 = 1 :=
  ⟨rfl, rfl, rfl⟩

/-- C1 amended: for every category C and every cache expiry E > 0, calling
analyzeCategory(C) twice in succession without any underlying data change
returns identical frequency tables on both calls; and provided the first
call's table is non-empty, the second call performs zero network requests
(it short-circuits on the valid, non-empty analysis cache written by - or
already serving - the first call).  (When the first call's table is empty,
no non-empty analysis cache exists and the second call attempts a fresh
fetch.) -/
theorem claim_C1_analyze_twice (cfg : Config) (o : Oracle) (now : Int) (fs : FS)
    (category : String) (hE : 1 ≤ cfg.cache_expiry_days) :
    (analyze_category cfg o now (analyze_category cfg o now fs category).2.1 category).1
        = (analyze_category cfg o now fs category).1
      ∧ ((analyze_category cfg o now fs category).1 ≠ [] →
          (analyze_category cfg o now (analyze_category cfg o now fs category).2.1
            category).2.2 = 0) := by
  cases hA : analysisLookup cfg fs now category with
  | some tbl =>
    rw [analyze_category_hit o hA]
    dsimp only
    rw [analyze_category_hit o hA]
    exact ⟨rfl, fun _ => rfl⟩
  | none =>
    cases hM : membersLookup cfg fs now category with
    | some pages =>
      have hne : pages ≠ [] := membersLookup_nonempty hM
      have h1 : analyze_category cfg o now fs category
          = aggregate cfg o now category pages fs 0 := by
        rw [analyze_category_miss o hA, get_category_members_hit o hM]
      rw [h1, aggregate_ne_nil hne]
      dsimp only
      cases htbl : counter (pages.flatMap (pageWords o)) with
      | nil =>
        have hA2 := @analysisLookup_save_nil cfg fs now category
          ((pages.filter (fun t => !(o.content t).isEmpty)).length)
        have hM2 : membersLookup cfg
            (save_cache fs now (cache_filename cfg category "analysis")
              (mk_analysis_data category [] now
                ((pages.filter (fun t => !(o.content t).isEmpty)).length)))
            now category = some pages := by
          rw [membersLookup_save_analysis]
          exact hM
        constructor
        · rw [analyze_category_miss o hA2, get_category_members_hit o hM2]
          dsimp only
          rw [aggregate_ne_nil hne]
          exact htbl
        · intro hcon
          exact absurd rfl hcon
      | cons x xs =>
        have hA2 := @analysisLookup_save_nonempty cfg fs now category _
          ((pages.filter (fun t => !(o.content t).isEmpty)).length) hE
          (List.cons_ne_nil x xs)
        rw [analyze_category_hit o hA2]
        exact ⟨rfl, fun _ => rfl⟩
    | none =>
      have h1 : analyze_category cfg o now fs category
          = aggregate cfg o now category (o.members category)
              (save_cache fs now (cache_filename cfg category "members")
                (mk_members_data category (o.members category) now)) 1 := by
        rw [analyze_category_miss o hA, get_category_members_miss o hM]
      cases hT : o.members category with
      | nil =>
        rw [h1, hT, aggregate_nil]
        dsimp only
        have hA2 : analysisLookup cfg
            (save_cache fs now (cache_filename cfg category "members")
              (mk_members_data category [] now)) now category = none := by
          rw [analysisLookup_save_members]
          exact hA
        have hM2 := @membersLookup_save_nil cfg fs now now category
        rw [analyze_category_miss o hA2, get_category_members_miss o hM2]
        dsimp only
        rw [hT, aggregate_nil]
        exact ⟨rfl, fun hcon => absurd rfl hcon⟩
      | cons t ts =>
        rw [h1, hT, aggregate_ne_nil (List.cons_ne_nil t ts)]
        dsimp only
        cases htbl : counter ((t :: ts).flatMap (pageWords o)) with
        | nil =>
          have hA2 := @analysisLookup_save_nil cfg
            (save_cache fs now (cache_filename cfg category "members")
              (mk_members_data category (t :: ts) now)) now category
            (((t :: ts).filter (fun s => !(o.content s).isEmpty)).length)
          have hM2 : membersLookup cfg
              (save_cache
                (save_cache fs now (cache_filename cfg category "members")
                  (mk_members_data category (t :: ts) now))
                now (cache_filename cfg category "analysis")
                (mk_analysis_data category [] now
                  (((t :: ts).filter (fun s => !(o.content s).isEmpty)).length)))
              now category = some (t :: ts) := by
            rw [membersLookup_save_analysis]
            exact membersLookup_save_nonempty fs now category hE (List.cons_ne_nil t ts)
          constructor
          · rw [analyze_category_miss o hA2, get_category_members_hit o hM2]
            dsimp only
            rw [aggregate_ne_nil (List.cons_ne_nil t ts)]
            exact htbl
          · intro hcon
            exact absurd rfl hcon
        | cons x xs =>
          have hA2 := @analysisLookup_save_nonempty cfg
            (save_cache fs now (cache_filename cfg category "members")
              (mk_members_data category (t :: ts) now)) now category _
            (((t :: ts).filter (fun s => !(o.content s).isEmpty)).length) hE
            (List.cons_ne_nil x xs)
          rw [analyze_category_hit o hA2]
          exact ⟨rfl, fun _ => rfl⟩

/-- C1 witness: the amended theorem applied to the default configuration
(expiry 7 > 0), a two-page category, and an empty starting cache. -/
theorem claim_C1_witness :
    (analyze_category cfg7 oracleTwoPages 0
        (analyze_category cfg7 oracleTwoPages 0 emptyFS "Cat").2.1 "Cat").1
        = (analyze_category cfg7 oracleTwoPages 0 emptyFS "Cat").1
      ∧ ((analyze_category cfg7 oracleTwoPages 0 emptyFS "Cat").1 ≠ [] →
          (analyze_category cfg7 oracleTwoPages 0
            (analyze_category cfg7 oracleTwoPages 0 emptyFS "Cat").2.1 "Cat").2.2 = 0) :=
  claim_C1_analyze_twice cfg7 oracleTwoPages 0 emptyFS "Cat" (by decide)

/-- An absent analysis cache file makes the analysis lookup miss. -/
theorem analysisLookup_absent {cfg : Config} {fs : FS} {now : Int} {category : String}
    (h : fs (cache_filename cfg category "analysis") = none) :
    analysisLookup cfg fs now category = none := by
  unfold analysisLookup is_cache_valid
  rw [h]
  rfl

/-- An absent members cache file makes the members lookup miss. -/
theorem membersLookup_absent {cfg : Config} {fs : FS} {now : Int} {category : String}
    (h : fs (cache_filename cfg category "members") = none) :
    membersLookup cfg fs now category = none := by
  unfold membersLookup is_cache_valid
  rw [h]
  rfl

/-- C2: validity is a pure function of (file existence, file mtime, current
time, expiryDays): a cache file is valid iff it exists and its last-modified
time lies within expiryDays (as seconds) of the current time (strictly:
now - mtime < expiryDays * 86400); consequently, when the configured expiry
is 0 days, every validity check on a file whose modification time is not in
the future (mtime ≤ now) reports the cache as expired, regardless of the
file's contents, and a missing file is never valid. -/
theorem claim_C2_validity :
    (∀ (cfg : Config) (fs : FS) (now : Int) (file : String),
        is_cache_valid cfg fs now file = true
          ↔ ∃ content mtime, fs file = some (content, mtime)
              ∧ now - mtime < (cfg.cache_expiry_days : Int) * secondsPerDay)
      ∧ (∀ (cfg : Config) (fs : FS) (now : Int) (file : String)
            (content : FileContent) (mtime : Int),
          cfg.cache_expiry_days = 0 → fs file = some (content, mtime) →
            mtime ≤ now → is_cache_valid cfg fs now file = false) := by
  constructor
  · intro cfg fs now file
    unfold is_cache_valid
    cases hf : fs file with
    | none => simp
    | some v =>
      rcases v with ⟨c, m⟩
      simp only [decide_eq_true_eq, Option.some.injEq]
      constructor
      · intro h
        exact ⟨c, m, rfl, by omega⟩
      · rintro ⟨c', m', hEq, hlt⟩
        have hm : m' = m := (Prod.mk.injEq _ _ _ _).mp hEq.symm |>.2
        subst hm
        omega
  · intro cfg fs now file c m h0 hf hm
    unfold is_cache_valid
    rw [hf]
    simp only [h0, Nat.cast_zero, zero_mul, decide_eq_false_iff_not, not_lt, secondsPerDay]
    omega

/-- C2 witness: the theorem applied to a file system holding one document
written at time 3, checked at time 5, under expiry 0 (expired) and under the
default expiry 7 (characterization instance). -/
theorem claim_C2_witness :
    is_cache_valid cfg0 fsOneDoc 5 "cache/doc.json" = false
      ∧ (is_cache_valid cfg7 fsOneDoc 5 "cache/doc.json" = true
          ↔ ∃ content mtime, fsOneDoc "cache/doc.json" = some (content, mtime)
              ∧ (5 : Int) - mtime < (cfg7.cache_expiry_days : Int) * secondsPerDay) :=
  ⟨claim_C2_validity.2 cfg0 fsOneDoc 5 "cache/doc.json" (FileContent.json emptyDoc) 3
      rfl rfl (by decide),
   claim_C2_validity.1 cfg7 fsOneDoc 5 "cache/doc.json"⟩

/-- C5: for every cache file, load returns the empty dict when the backing
file is missing (FileNotFoundError) or its content is malformed
(json.JSONDecodeError), and - being a total function in this model - never
raises on malformed content: both cases produce exactly the cache-miss
result. -/
theorem claim_C5_load_malformed (fs : FS) (file : String)
    (h : fs file = none ∨ ∃ mtime, fs file = some (FileContent.malformed, mtime)) :
    load_cache fs file = emptyDoc := by
  unfold load_cache
  rcases h with h | ⟨m, h⟩ <;> rw [h]

/-- C5 witness: the theorem applied to a missing file and to a malformed
file. -/
theorem claim_C5_witness :
    load_cache emptyFS "cache/doc.json" = emptyDoc
      ∧ load_cache fsMalformed "cache/bad.json" = emptyDoc :=
  ⟨claim_C5_load_malformed emptyFS "cache/doc.json" (Or.inl rfl),
   claim_C5_load_malformed fsMalformed "cache/bad.json" (Or.inr ⟨3, rfl⟩)⟩

/-- C7: for every word-frequency table of string keys and integer counts,
saving the analysis-kind cache document containing it and then loading that
document reproduces the identical mapping (same keys, same counts, same
order), as in the {"alpha": 5, "beta": 3} instance. -/
theorem claim_C7_round_trip :
    (∀ (cfg : Config) (fs : FS) (now : Int) (category : String)
        (tbl : List (String × Nat)) (pp : Nat),
      load_cache
          (save_cache fs now (cache_filename cfg category "analysis")
            (mk_analysis_data category tbl now pp))
          (cache_filename cfg category "analysis")
        = mk_analysis_data category tbl now pp
      ∧ (load_cache
          (save_cache fs now (cache_filename cfg category "analysis")
            (mk_analysis_data category tbl now pp))
          (cache_filename cfg category "analysis")).word_frequencies = some tbl)
      ∧ (load_cache
          (save_cache emptyFS 0 (cache_filename cfg7 "Cat" "analysis")
            (mk_analysis_data "Cat" [("alpha", 5), ("beta", 3)] 0 2))
          (cache_filename cfg7 "Cat" "analysis")).word_frequencies
        = some [("alpha", 5), ("beta", 3)] := by
  constructor
  · intro cfg fs now category tbl pp
    constructor
    · exact load_cache_save_self fs now _ _
    · rw [load_cache_save_self]
      rfl
  · rw [load_cache_save_self]
    rfl

/-- C4: for a category with no cache files yet whose member fetch yields
zero page titles, analyzeCategory returns an empty frequency table and
writes no analysis-kind cache document (the analysis cache file stays
absent), so a subsequent call - at any later time - attempts a live fetch
(at least one network request) rather than serving a cached empty result. -/
theorem claim_C4_empty_category (cfg : Config) (o : Oracle) (now now2 : Int)
    (fs : FS) (category : String)
    (hmem : o.members category = [])
    (hA0 : fs (cache_filename cfg category "analysis") = none)
    (hM0 : fs (cache_filename cfg category "members") = none) :
    (analyze_category cfg o now fs category).1 = []
      ∧ (analyze_category cfg o now fs category).2.1
          (cache_filename cfg category "analysis") = none
      ∧ 1 ≤ (analyze_category cfg o now2
              (analyze_category cfg o now fs category).2.1 category).2.2 := by
  have hA : analysisLookup cfg fs now category = none := analysisLookup_absent hA0
  have hM : membersLookup cfg fs now category = none := membersLookup_absent hM0
  have h1 : analyze_category cfg o now fs category
      = aggregate cfg o now category (o.members category)
          (save_cache fs now (cache_filename cfg category "members")
            (mk_members_data category (o.members category) now)) 1 := by
    rw [analyze_category_miss o hA, get_category_members_miss o hM]
  rw [h1, hmem, aggregate_nil]
  dsimp only
  have hA0' : (save_cache fs now (cache_filename cfg category "members")
      (mk_members_data category [] now)) (cache_filename cfg category "analysis") = none := by
    rw [save_cache, FS.set_other fs _ _ (cache_filename_analysis_ne_members cfg category)]
    exact hA0
  refine ⟨rfl, hA0', ?_⟩
  have hA2 : analysisLookup cfg
      (save_cache fs now (cache_filename cfg category "members")
        (mk_members_data category [] now)) now2 category = none :=
    analysisLookup_absent hA0'
  have hM2 := @membersLookup_save_nil cfg fs now now2 category
  rw [analyze_category_miss o hA2, get_category_members_miss o hM2]
  dsimp only
  rw [hmem, aggregate_nil]

/-- C4 witness: the theorem applied to the default configuration, an
empty-category oracle, the empty file system, time 0 for the first call and
time 10 for the second. -/
theorem claim_C4_witness :
    (analyze_category cfg7 oracleEmptyCat 0 emptyFS "Empty_cat").1 = []
      ∧ (analyze_category cfg7 oracleEmptyCat 0 emptyFS "Empty_cat").2.1
          (cache_filename cfg7 "Empty_cat" "analysis") = none
      ∧ 1 ≤ (analyze_category cfg7 oracleEmptyCat 10
              (analyze_category cfg7 oracleEmptyCat 0 emptyFS "Empty_cat").2.1
              "Empty_cat").2.2 :=
  claim_C4_empty_category cfg7 oracleEmptyCat 0 10 emptyFS "Empty_cat" rfl rfl rfl

/-- The step trace of _save_cache has exactly the effect of the pure save
model: truncate-then-write at the final path. -/
theorem runFsSteps_save_cache (fs : FS) (now : Int) (file : String) (d : CacheDoc) :
    runFsSteps now fs (save_cache_steps file d) = save_cache fs now file d := by
  funext k
  unfold runFsSteps save_cache_steps applyFsStep save_cache
  by_cases hk : k = file <;> simp [FS.set, hk]

/-- C6 (code bug): every save writes directly to the final cache path - its
step trace contains no rename and no temporary path, contradicting the
required temp-path-plus-atomic-rename discipline - and a save interrupted
after the truncating open leaves a file at the final path that
_is_cache_valid accepts as valid (fresh mtime; validity never inspects
content) while its content is truncated/unparseable, exactly the
"valid but truncated" outcome the claim rules out.  Evaluated at the
analysis document {"alpha": 5, "beta": 3} of category "Machine_learning". -/
theorem claim_C6_save_not_atomic :
    (∀ (fs : FS) (now : Int) (file : String) (d : CacheDoc),
        runFsSteps now fs (save_cache_steps file d) = save_cache fs now file d)
      ∧ (save_cache_steps c6_file c6_doc).filter FsStep.isRename = []
      ∧ ((save_cache_steps c6_file c6_doc).map FsStep.target).all (fun p => p == c6_file)
          = true
      ∧ is_cache_valid cfg7 c6_crash_fs 0 c6_file = true
      ∧ c6_crash_fs c6_file = some (FileContent.malformed, 0)
      ∧ load_cache c6_crash_fs c6_file = emptyDoc :=
  ⟨runFsSteps_save_cache, rfl, rfl, rfl, rfl, rfl⟩

/-- In a frequency-descending-sorted list the head's count dominates. -/
theorem pairwise_head_max {t : String × Nat} {ts : List (String × Nat)}
    (hp : (t :: ts).Pairwise freqDescRel) : ∀ p ∈ t :: ts, p.2 ≤ t.2 := by
  intro p hp'
  rcases List.mem_cons.mp hp' with h | h
  · subst h
    exact le_rfl
  · exact (List.pairwise_cons.mp hp).1 p h

/-- In a frequency-descending-sorted list the last element's count is the
minimum. -/
theorem pairwise_getLast_min :
    ∀ {l : List (String × Nat)} (hl : l ≠ []), l.Pairwise freqDescRel →
      ∀ p ∈ l, (l.getLast hl).2 ≤ p.2 := by
  intro l
  induction l with
  | nil => intro hl; exact absurd rfl hl
  | cons a l ih =>
    intro hl hp p hmem
    cases l with
    | nil =>
      have hpa : p = a := by simpa using hmem
      subst hpa
      simp [List.getLast]
    | cons b l' =>
      have hLne : (b :: l') ≠ [] := List.cons_ne_nil b l'
      rw [List.getLast_cons hLne]
      rcases List.mem_cons.mp hmem with h | h
      · subst h
        exact (List.pairwise_cons.mp hp).1 _ (List.getLast_mem hLne)
      · exact ih hLne (List.pairwise_cons.mp hp).2 p h

/-- Every member of a list appears in its enumeration at some index. -/
theorem mem_enum_of_mem {α : Type} {l : List α} {a : α} (h : a ∈ l) :
    ∃ i, (i, a) ∈ l.enum := by
  rcases List.mem_iff_get.mp h with ⟨⟨i, hi⟩, rfl⟩
  refine ⟨i, ?_⟩
  have hi' : i < l.enum.length := by simpa [List.enum_length] using hi
  have hget : l.enum.get ⟨i, hi'⟩ = (i, l.get ⟨i, hi⟩) := by
    simpa using List.getElem_enum l i hi'
  rw [← hget]
  exact List.get_mem l.enum i hi'

/-- Shape of the word-cloud computation on a non-empty table: the displayed
list is the enumeration of the non-empty top-100 prefix of a stable
frequency-descending sort, with each rank mapped to a display entry by the
normalization-and-palette rule. -/
theorem word_cloud_structure (word_freq : List (String × Nat)) (palette_name : String)
    (hne : word_freq ≠ []) :
    ∃ (t : String × Nat) (ts : List (String × Nat)),
      (List.insertionSort freqDescRel word_freq).take 100 = t :: ts
        ∧ (t :: ts).Pairwise freqDescRel
        ∧ word_cloud_entries word_freq palette_name
            = (t :: ts).enum.map (fun p =>
                { text := p.2.1,
                  size := 10 + 90 * (p.2.2 - ((t :: ts).getLast (List.cons_ne_nil t ts)).2)
                    / (if t.2 ≠ ((t :: ts).getLast (List.cons_ne_nil t ts)).2
                       then t.2 - ((t :: ts).getLast (List.cons_ne_nil t ts)).2 else 1),
                  frequency := p.2.2,
                  color := (selectPalette palette_name).getD
                    (p.1 % (selectPalette palette_name).length) "" }) := by
  have hsw : List.insertionSort freqDescRel word_freq ≠ [] := by
    intro h
    have hperm := List.perm_insertionSort freqDescRel word_freq
    rw [h] at hperm
    exact hne hperm.nil_eq.symm
  obtain ⟨t, ts, htop⟩ :
      ∃ t ts, (List.insertionSort freqDescRel word_freq).take 100 = t :: ts := by
    cases hsw' : List.insertionSort freqDescRel word_freq with
    | nil => exact absurd hsw' hsw
    | cons a l => exact ⟨a, l.take 99, by rw [List.take_succ_cons]⟩
  refine ⟨t, ts, htop, ?_, ?_⟩
  · exact List.Pairwise.sublist (htop ▸ List.take_sublist 100 _)
      (List.sorted_insertionSort freqDescRel word_freq)
  · simp only [word_cloud_entries, htop]

/-- C8: for every non-empty frequency table and every palette selection, the
word-cloud query returns the top-100 prefix of a frequency-descending sorted
permutation of the table (so at most 100 entries, ranked by descending
frequency), where each entry's display size maps the observed frequency
range of the displayed entries linearly onto the fixed display-size range
10-100 (size = 10 + 90 * (freq - min) / range, with range = max - min, or 1
when the range collapses) and each entry's color is taken cyclically from
the selected palette's fixed ordered color list by rank index. -/
theorem claim_C8_word_cloud (word_freq : List (String × Nat)) (palette_name : String)
    (hne : word_freq ≠ []) :
    ∃ sorted_words : List (String × Nat),
      sorted_words.Perm word_freq
        ∧ sorted_words.Pairwise freqDescRel
        ∧ (word_cloud_entries word_freq palette_name).map (fun e => (e.text, e.frequency))
            = sorted_words.take 100
        ∧ (word_cloud_entries word_freq palette_name).length = min 100 word_freq.length
        ∧ ∃ mx mn : Nat,
            (∀ e ∈ word_cloud_entries word_freq palette_name,
                mn ≤ e.frequency ∧ e.frequency ≤ mx)
              ∧ (∃ e ∈ word_cloud_entries word_freq palette_name, e.frequency = mx)
              ∧ (∃ e ∈ word_cloud_entries word_freq palette_name, e.frequency = mn)
              ∧ ∀ (i : Nat) (hi : i < (word_cloud_entries word_freq palette_name).length),
                  ((word_cloud_entries word_freq palette_name).get ⟨i, hi⟩).size
                      = 10 + 90 * (((word_cloud_entries word_freq palette_name).get
                            ⟨i, hi⟩).frequency - mn)
                          / (if mx ≠ mn then mx - mn else 1)
                    ∧ ((word_cloud_entries word_freq palette_name).get ⟨i, hi⟩).color
                      = (selectPalette palette_name).getD
                          (i % (selectPalette palette_name).length) "" := by
  obtain ⟨t, ts, htop, hpair, hout⟩ := word_cloud_structure word_freq palette_name hne
  refine ⟨List.insertionSort freqDescRel word_freq,
    List.perm_insertionSort freqDescRel word_freq,
    List.sorted_insertionSort freqDescRel word_freq, ?_, ?_, ?_⟩
  · rw [hout, htop, List.map_map]
    have hcomp : ((fun e : CloudWord => (e.text, e.frequency)) ∘ (fun p : Nat × (String × Nat) =>
        ({ text := p.2.1,
           size := 10 + 90 * (p.2.2 - ((t :: ts).getLast (List.cons_ne_nil t ts)).2)
             / (if t.2 ≠ ((t :: ts).getLast (List.cons_ne_nil t ts)).2
                then t.2 - ((t :: ts).getLast (List.cons_ne_nil t ts)).2 else 1),
           frequency := p.2.2,
           color := (selectPalette palette_name).getD
             (p.1 % (selectPalette palette_name).length) "" } : CloudWord)))
        = Prod.snd := by
      funext p
      rfl
    rw [hcomp, List.enum_map_snd]
  · rw [hout]
    simp only [List.length_map, List.enum_length]
    rw [← htop, List.length_take,
      (List.perm_insertionSort freqDescRel word_freq).length_eq]
  · refine ⟨t.2, ((t :: ts).getLast (List.cons_ne_nil t ts)).2, ?_, ?_, ?_, ?_⟩
    · intro e he
      rw [hout] at he
      rcases List.mem_map.mp he with ⟨p, hp, rfl⟩
      have hp2 := List.snd_mem_of_mem_enum hp
      exact ⟨pairwise_getLast_min (List.cons_ne_nil t ts) hpair _ hp2,
        pairwise_head_max hpair _ hp2⟩
    · rw [hout]
      have h0 : (0, t) ∈ (t :: ts).enum := by
        rw [List.enum_cons]
        exact List.mem_cons_self _ _
      exact ⟨_, List.mem_map_of_mem _ h0, rfl⟩
    · rw [hout]
      obtain ⟨i, hi⟩ := mem_enum_of_mem (List.getLast_mem (List.cons_ne_nil t ts))
      exact ⟨_, List.mem_map_of_mem _ hi, rfl⟩
    · intro i hi
      have hi' : i < (t :: ts).length := by
        rw [hout, List.length_map, List.enum_length] at hi
        exact hi
      constructor
      · simp only [List.get_eq_getElem, hout, List.getElem_map, List.getElem_enum]
      · simp only [List.get_eq_getElem, hout, List.getElem_map, List.getElem_enum]

/-- C8 witness: the theorem applied to the table
[("alpha", 5), ("beta", 3), ("gamma", 3)] with the "bright" palette. -/
theorem claim_C8_witness :
    ∃ sorted_words : List (String × Nat),
      sorted_words.Perm [("alpha", 5), ("beta", 3), ("gamma", 3)]
        ∧ sorted_words.Pairwise freqDescRel
        ∧ (word_cloud_entries [("alpha", 5), ("beta", 3), ("gamma", 3)] "bright").map
              (fun e => (e.text, e.frequency))
            = sorted_words.take 100
        ∧ (word_cloud_entries [("alpha", 5), ("beta", 3), ("gamma", 3)] "bright").length
            = min 100 ([("alpha", 5), ("beta", 3), ("gamma", 3)] : List (String × Nat)).length
        ∧ ∃ mx mn : Nat,
            (∀ e ∈ word_cloud_entries [("alpha", 5), ("beta", 3), ("gamma", 3)] "bright",
                mn ≤ e.frequency ∧ e.frequency ≤ mx)
              ∧ (∃ e ∈ word_cloud_entries [("alpha", 5), ("beta", 3), ("gamma", 3)] "bright",
                  e.frequency = mx)
              ∧ (∃ e ∈ word_cloud_entries [("alpha", 5), ("beta", 3), ("gamma", 3)] "bright",
                  e.frequency = mn)
              ∧ ∀ (i : Nat)
                  (hi : i < (word_cloud_entries [("alpha", 5), ("beta", 3), ("gamma", 3)]
                    "bright").length),
                  ((word_cloud_entries [("alpha", 5), ("beta", 3), ("gamma", 3)]
                        "bright").get ⟨i, hi⟩).size
                      = 10 + 90 * (((word_cloud_entries [("alpha", 5), ("beta", 3),
                            ("gamma", 3)] "bright").get ⟨i, hi⟩).frequency - mn)
                          / (if mx ≠ mn then mx - mn else 1)
                    ∧ ((word_cloud_entries [("alpha", 5), ("beta", 3), ("gamma", 3)]
                          "bright").get ⟨i, hi⟩).color
                      = (selectPalette "bright").getD (i % (selectPalette "bright").length) "" :=
  claim_C8_word_cloud [("alpha", 5), ("beta", 3), ("gamma", 3)] "bright" (by decide)

/-- C10: in every word-cloud response each entry's size is an integer
between 10 and 100 inclusive; and when all displayed words share one
frequency (maximum equals minimum) the divisor is forced to 1 - no division
by zero - and every entry's size is exactly 10. -/
theorem claim_C10_size_bounds (word_freq : List (String × Nat)) (palette_name : String) :
    (∀ e ∈ word_cloud_entries word_freq palette_name, 10 ≤ e.size ∧ e.size ≤ 100)
      ∧ ∀ c : Nat,
          (∀ e ∈ word_cloud_entries word_freq palette_name, e.frequency = c) →
            ∀ e ∈ word_cloud_entries word_freq palette_name, e.size = 10 := by
  cases word_freq with
  | nil =>
    have h0 : word_cloud_entries [] palette_name = [] := rfl
    rw [h0]
    exact ⟨fun e he => absurd he (List.not_mem_nil e),
      fun c _ e he => absurd he (List.not_mem_nil e)⟩
  | cons w ws =>
    obtain ⟨t, ts, htop, hpair, hout⟩ :=
      word_cloud_structure (w :: ws) palette_name (List.cons_ne_nil w ws)
    have hLne : (t :: ts) ≠ [] := List.cons_ne_nil t ts
    have hmn : ∀ p ∈ t :: ts, ((t :: ts).getLast hLne).2 ≤ p.2 :=
      pairwise_getLast_min hLne hpair
    have hmx : ∀ p ∈ t :: ts, p.2 ≤ t.2 := pairwise_head_max hpair
    have hmnt : ((t :: ts).getLast hLne).2 ≤ t.2 := hmn t (List.mem_cons_self t ts)
    constructor
    · intro e he
      rw [hout] at he
      rcases List.mem_map.mp he with ⟨p, hp, rfl⟩
      have hp2 := List.snd_mem_of_mem_enum hp
      constructor
      · exact Nat.le_add_right 10 _
      · have hquot : 90 * (p.2.2 - ((t :: ts).getLast hLne).2)
            / (if t.2 ≠ ((t :: ts).getLast hLne).2
               then t.2 - ((t :: ts).getLast hLne).2 else 1) ≤ 90 := by
          by_cases hEq : t.2 = ((t :: ts).getLast hLne).2
          · rw [if_neg (by simpa using hEq)]
            have hz : p.2.2 - ((t :: ts).getLast hLne).2 = 0 :=
              Nat.sub_eq_zero_of_le (le_trans (hmx p.2 hp2) (le_of_eq hEq))
            rw [hz]
            simp
          · rw [if_pos hEq]
            have hpos : 0 < t.2 - ((t :: ts).getLast hLne).2 :=
              Nat.sub_pos_of_lt (lt_of_le_of_ne hmnt (Ne.symm hEq))
            have hle : p.2.2 - ((t :: ts).getLast hLne).2
                ≤ t.2 - ((t :: ts).getLast hLne).2 :=
              Nat.sub_le_sub_right (hmx p.2 hp2) _
            calc 90 * (p.2.2 - ((t :: ts).getLast hLne).2)
                  / (t.2 - ((t :: ts).getLast hLne).2)
                ≤ 90 * (t.2 - ((t :: ts).getLast hLne).2)
                  / (t.2 - ((t :: ts).getLast hLne).2) :=
                  Nat.div_le_div_right (Nat.mul_le_mul_left 90 hle)
              _ = 90 := Nat.mul_div_cancel 90 hpos
        change 10 + 90 * (p.2.2 - ((t :: ts).getLast hLne).2)
            / (if t.2 ≠ ((t :: ts).getLast hLne).2
               then t.2 - ((t :: ts).getLast hLne).2 else 1) ≤ 100
        omega
    · intro c hc e he
      have hmem0 : (0, t) ∈ (t :: ts).enum := by
        rw [List.enum_cons]
        exact List.mem_cons_self _ _
      have htc : t.2 = c := by
        have := hc _ (by rw [hout]; exact List.mem_map_of_mem _ hmem0)
        simpa using this
      obtain ⟨i, hilast⟩ := mem_enum_of_mem (List.getLast_mem hLne)
      have hlastc : ((t :: ts).getLast hLne).2 = c := by
        have := hc _ (by rw [hout]; exact List.mem_map_of_mem _ hilast)
        simpa using this
      rw [hout] at he
      rcases List.mem_map.mp he with ⟨p, hp, rfl⟩
      have hpc : p.2.2 = c := by
        have := hc _ (by rw [hout]; exact List.mem_map_of_mem _ hp)
        simpa using this
      have hz : p.2.2 - ((t :: ts).getLast hLne).2 = 0 := by
        rw [hpc, hlastc]
        exact Nat.sub_self c
      change 10 + 90 * (p.2.2 - ((t :: ts).getLast hLne).2)
          / (if t.2 ≠ ((t :: ts).getLast hLne).2
             then t.2 - ((t :: ts).getLast hLne).2 else 1) = 10
      rw [hz]
      simp

/-- C10 witness: the theorem applied to the table [("aa", 4), ("bb", 4)]
(all displayed frequencies equal), evaluated at the first displayed entry. -/
theorem claim_C10_witness :
    10 ≤ c10_entry.size ∧ c10_entry.size ≤ 100 ∧ c10_entry.size = 10 :=
  ⟨((claim_C10_size_bounds [("aa", 4), ("bb", 4)] "pastel").1 c10_entry (by decide)).1,
   ((claim_C10_size_bounds [("aa", 4), ("bb", 4)] "pastel").1 c10_entry (by decide)).2,
   (claim_C10_size_bounds [("aa", 4), ("bb", 4)] "pastel").2 4 (by decide) c10_entry
     (by decide)⟩

/-- C9: for every non-cached run (the analysis-cache guard misses) whose
member fetch yields a non-empty title list, every count in the returned
frequency table is at least 1 (each key genuinely occurs in the collected
token stream), and the summary statistics written to the analysis cache are
consistent with the table: totalUniqueWords equals the number of keys and
totalWordOccurrences equals the sum of all counts, which equals the total
number of tokens collected across all pages. -/
theorem claim_C9_invariants (cfg : Config) (o : Oracle) (now : Int) (fs : FS)
    (category : String)
    (hA : analysisLookup cfg fs now category = none) :
    (∀ p ∈ (analyze_category cfg o now fs category).1, 1 ≤ p.2)
      ∧ ((get_category_members cfg o now fs category).1 ≠ [] →
          ∃ doc : CacheDoc,
            (analyze_category cfg o now fs category).2.1
                (cache_filename cfg category "analysis")
              = some (FileContent.json doc, now)
            ∧ doc.word_frequencies = some (analyze_category cfg o now fs category).1
            ∧ doc.total_unique_words
                = some (analyze_category cfg o now fs category).1.length
            ∧ doc.total_word_occurrences
                = some (((analyze_category cfg o now fs category).1.map (fun p => p.2)).sum)
            ∧ ((analyze_category cfg o now fs category).1.map (fun p => p.2)).sum
                = ((get_category_members cfg o now fs category).1.flatMap
                    (pageWords o)).length) := by
  rcases hg : get_category_members cfg o now fs category with ⟨titles, fs1, r1⟩
  have h1 : analyze_category cfg o now fs category
      = aggregate cfg o now category titles fs1 r1 := by
    rw [analyze_category_miss o hA, hg]
  cases titles with
  | nil =>
    rw [h1, aggregate_nil]
    exact ⟨fun p hp => absurd hp (List.not_mem_nil p), fun hcon => absurd rfl hcon⟩
  | cons t0 ts0 =>
    rw [h1, aggregate_ne_nil (List.cons_ne_nil t0 ts0)]
    dsimp only
    constructor
    · intro p hp
      exact (counter_mem_spec _ p hp).2.2
    · intro _
      refine ⟨mk_analysis_data category
        (counter ((t0 :: ts0).flatMap (pageWords o))) now
        (((t0 :: ts0).filter (fun t => !(o.content t).isEmpty)).length), ?_, rfl, rfl, rfl, ?_⟩
      · rw [save_cache]
        exact FS.set_self _ _ _
      · exact counter_sum_eq_length ((t0 :: ts0).flatMap (pageWords o)).length _ le_rfl

/-- C9 witness: the theorem applied to the default configuration, a two-page
category with fixed page text, and the empty starting cache. -/
theorem claim_C9_witness :
    (∀ p ∈ (analyze_category cfg7 oracleTwoPages 0 emptyFS "Cat").1, 1 ≤ p.2)
      ∧ ∃ doc : CacheDoc,
          (analyze_category cfg7 oracleTwoPages 0 emptyFS "Cat").2.1
              (cache_filename cfg7 "Cat" "analysis")
            = some (FileContent.json doc, 0)
          ∧ doc.word_frequencies
              = some (analyze_category cfg7 oracleTwoPages 0 emptyFS "Cat").1
          ∧ doc.total_unique_words
              = some (analyze_category cfg7 oracleTwoPages 0 emptyFS "Cat").1.length
          ∧ doc.total_word_occurrences
              = some (((analyze_category cfg7 oracleTwoPages 0 emptyFS "Cat").1.map
                  (fun p => p.2)).sum)
          ∧ ((analyze_category cfg7 oracleTwoPages 0 emptyFS "Cat").1.map
                (fun p => p.2)).sum
              = ((get_category_members cfg7 oracleTwoPages 0 emptyFS "Cat").1.flatMap
                  (pageWords oracleTwoPages)).length :=
  ⟨(claim_C9_invariants cfg7 oracleTwoPages 0 emptyFS "Cat" rfl).1,
   (claim_C9_invariants cfg7 oracleTwoPages 0 emptyFS "Cat" rfl).2 (by decide)⟩

end WikipediaAnalysis
